import Mathlib

/-!
Verification of the NSW suburb finder's two algorithmic cores against their
specification:

* the natural-language preference-to-weight inference engine
  (`backend/api/app.py`: `DEFAULT_WEIGHTS`, `FALLBACK_KEYWORDS`,
  `_infer_weights_keyword`, `infer_weights_from_nl_query`), and
* the well-resourced scoring engine
  (`src/analysis/scoring_engine.py`: `_calculate_z_scores`,
  `_calculate_final_scores`).

Python strings are modelled as `List Char`; Python floats are modelled as
exact rationals (`ℚ`) for the weight engine and as reals (`ℝ`) for the
scoring engine (which uses `sqrt` and `exp`).  Python functions that can
raise are modelled with `Except`; the external sentence-transformers
embedding capability is modelled as an oracle (`EmbedOutcome`) supplying
either "library unavailable", "raised while embedding", or an arbitrary
vector of cosine similarities against the example catalog.
-/

/-! ## Text model: Python `str.strip()`, `str.lower()`, `in` (substring) -/

/-- Python `str.lower()` on a string modelled as a character list
(ASCII case mapping, which covers every trigger phrase in the source). -/
def pyLower (l : List Char) : List Char := l.map Char.toLower

/-- Python `str.strip()`: drop whitespace from both ends. -/
def pyStrip (l : List Char) : List Char :=
  (((l.dropWhile Char.isWhitespace).reverse).dropWhile Char.isWhitespace).reverse

/-- Python substring test `p in t`. -/
def isSub : List Char → List Char → Bool
  | p, [] => p.isEmpty
  | p, t@(_ :: rest) => p.isPrefixOf t || isSub p rest

/-- Convert a string literal to the character-list model. -/
def chars (s : String) : List Char := s.data

/-- Convert a list of string literals to the character-list model. -/
def charsList (l : List String) : List (List Char) := l.map String.data

/-! ## Data model: `WeightVector` and the five categories -/

/-- The five amenity categories, i.e. the keys of the Python weight dicts
(`DEFAULT_WEIGHTS`, `FALLBACK_KEYWORDS`, the example profiles). -/
inductive Cat : Type
  | recreation | community | transport | education | utility
deriving DecidableEq, Repr

/-- The five categories, in the insertion order of the Python dicts. -/
def cats : List Cat := [.recreation, .community, .transport, .education, .utility]

/-- A weight vector: exactly five named numeric fields, one per category,
modelling the `Dict[str, float]` values produced by the inference engine. -/
structure WeightVector where
  recreation : ℚ
  community : ℚ
  transport : ℚ
  education : ℚ
  utility : ℚ
deriving DecidableEq, Repr

/-- Look up one category's weight (Python `w[category]`). -/
def wget : Cat → WeightVector → ℚ
  | .recreation, w => w.recreation
  | .community, w => w.community
  | .transport, w => w.transport
  | .education, w => w.education
  | .utility, w => w.utility

/-- Sum of the five fields (Python `sum(w.values())`). -/
def wsum (w : WeightVector) : ℚ :=
  w.recreation + w.community + w.transport + w.education + w.utility

/-- `DEFAULT_WEIGHTS` from `backend/api/app.py` lines 61-67. -/
def DEFAULT_WEIGHTS : WeightVector :=
  { recreation := 0.25
    community := 0.25
    transport := 0.25
    education := 0.15
    utility := 0.10 }

/-! ## `FALLBACK_KEYWORDS` (`backend/api/app.py` lines 159-236) -/

/-- The curated trigger-phrase lists, one per category. -/
def FALLBACK_KEYWORDS : Cat → List (List Char)
  | .recreation => charsList
      ["park", "parks", "beach", "beaches", "sports", "gym", "pool",
       "playground", "green space", "nature", "outdoors", "recreation",
       "nightlife", "bars", "restaurants"]
  | .community => charsList
      ["community", "family", "family-friendly", "families", "kids", "safe",
       "quiet", "peaceful", "neighbourly", "neighborhood", "village",
       "local vibe", "community centre", "community center", "library"]
  | .transport => charsList
      ["transport", "public transport", "train", "station", "bus", "metro",
       "light rail", "tram", "easy commute", "close to city", "near cbd",
       "good transport", "strong transport"]
  | .education => charsList
      ["school", "schools", "good schools", "education", "university", "uni",
       "college", "tafes", "students", "student", "children\x27s education"]
  | .utility => charsList
      ["shopping", "shops", "supermarket", "mall", "services", "hospital",
       "clinic", "doctor", "healthcare", "infrastructure", "amenities",
       "essential services"]

/-- One category's raw keyword score: the loop
`for w in words: if w in text: scores[category] += 1.0`. -/
def catScore (words : List (List Char)) (text : List Char) : ℚ :=
  words.foldl (fun acc w => if isSub w text then acc + 1 else acc) 0

/-- `_infer_weights_keyword` from `backend/api/app.py` lines 239-255. -/
def _infer_weights_keyword (query : List Char) : WeightVector :=
  let text := pyLower (pyStrip query)
  if text = [] then DEFAULT_WEIGHTS
  else
    let sR := catScore (FALLBACK_KEYWORDS .recreation) text
    let sC := catScore (FALLBACK_KEYWORDS .community) text
    let sT := catScore (FALLBACK_KEYWORDS .transport) text
    let sE := catScore (FALLBACK_KEYWORDS .education) text
    let sU := catScore (FALLBACK_KEYWORDS .utility) text
    if sR = 0 ∧ sC = 0 ∧ sT = 0 ∧ sE = 0 ∧ sU = 0 then DEFAULT_WEIGHTS
    else
      -- `total = sum(scores.values()) or 1.0`
      let total := sR + sC + sT + sE + sU
      let t := if total = 0 then 1 else total
      { recreation := sR / t
        community := sC / t
        transport := sT / t
        education := sE / t
        utility := sU / t }

/-! ## The example catalog (`EXAMPLE_QUERIES`, `backend/api/app.py` lines 71-132) -/

/-- A curated catalog entry: natural-language text plus hand-tuned weights. -/
structure ExampleProfile where
  text : List Char
  weights : WeightVector

/-- `EXAMPLE_QUERIES` from `backend/api/app.py` lines 71-132. -/
def EXAMPLE_QUERIES : List ExampleProfile :=
  [ { text := chars "great for families with young kids, safe and quiet with good schools"
      weights := { recreation := 0.20, community := 0.30, transport := 0.15,
                   education := 0.30, utility := 0.05 } }
  , { text := chars "lots of nightlife, bars and restaurants, great public transport, close to the city"
      weights := { recreation := 0.35, community := 0.15, transport := 0.30,
                   education := 0.10, utility := 0.10 } }
  , { text := chars "budget friendly suburb with basic amenities, okay transport, nothing too fancy"
      weights := { recreation := 0.15, community := 0.20, transport := 0.25,
                   education := 0.15, utility := 0.25 } }
  , { text := chars "quiet area for retirees, close to healthcare and essential services, peaceful community"
      weights := { recreation := 0.15, community := 0.30, transport := 0.15,
                   education := 0.05, utility := 0.35 } }
  , { text := chars "good for students, close to universities and TAFEs, strong public transport"
      weights := { recreation := 0.20, community := 0.20, transport := 0.30,
                   education := 0.25, utility := 0.05 } }
  , { text := chars "balanced lifestyle with parks, decent schools, community feel and good transport options"
      weights := { recreation := 0.25, community := 0.25, transport := 0.25,
                   education := 0.20, utility := 0.05 } } ]

/-! ## The embedding oracle and `infer_weights_from_nl_query` -/

/-- The observable behaviour of the external sentence-transformers
capability on one call of `infer_weights_from_nl_query`:
the library may be missing (`_HAS_SENTENCE_TRANSFORMERS` false), loading or
encoding may raise, or the encode succeeds, in which case the code sees the
similarity vector `sims = np.dot(example_embs, q_vec)` — modelled directly
as an arbitrary rational vector, since the capability's numeric output is
arbitrary. -/
inductive EmbedOutcome : Type
  | unavailable : EmbedOutcome
  | raised : EmbedOutcome
  | sims : List ℚ → EmbedOutcome

/-- Insert an (index, similarity) pair into a descending-sorted list. -/
def insertPairDesc (x : Nat × ℚ) : List (Nat × ℚ) → List (Nat × ℚ)
  | [] => [x]
  | y :: ys => if y.2 < x.2 then x :: y :: ys else y :: insertPairDesc x ys

/-- Sort (index, similarity) pairs by similarity, descending.  Models
`np.argsort(-sims)` paired with the values `sims[idx]`; ties are resolved
in a fixed order (numpy's quicksort leaves tie order unspecified). -/
def sortPairsDesc : List (Nat × ℚ) → List (Nat × ℚ)
  | [] => []
  | x :: xs => insertPairDesc x (sortPairsDesc xs)

/-- `idx = np.argsort(-sims)[:top_k]` together with `top_sims = sims[idx]`:
the top-k (index, similarity) pairs, `top_k = min(3, len(EXAMPLE_QUERIES))`. -/
def topPairs (sims : List ℚ) : List (Nat × ℚ) :=
  (sortPairsDesc sims.enum).take (min 3 EXAMPLE_QUERIES.length)

/-- `top_sims`: the top-k similarity values themselves. -/
def topSims (sims : List ℚ) : List ℚ := (topPairs sims).map Prod.snd

/-- The blending loop
`for w, i in zip(weights_norm, idx): agg[key] += w * EXAMPLE_QUERIES[i]["weights"][key]`.
Indexing `EXAMPLE_QUERIES[i]` raises `IndexError` when `i` is out of range,
modelled as `none`. -/
def blendLoop (denom : ℚ) : List (Nat × ℚ) → Option WeightVector
  | [] => some { recreation := 0, community := 0, transport := 0,
                 education := 0, utility := 0 }
  | (i, v) :: rest =>
    match EXAMPLE_QUERIES.get? i, blendLoop denom rest with
    | some ex, some acc =>
        some { recreation := acc.recreation + (v / denom) * ex.weights.recreation
               community := acc.community + (v / denom) * ex.weights.community
               transport := acc.transport + (v / denom) * ex.weights.transport
               education := acc.education + (v / denom) * ex.weights.education
               utility := acc.utility + (v / denom) * ex.weights.utility }
    | _, _ => none

/-- The body of the `try:` block of `infer_weights_from_nl_query`
(`backend/api/app.py` lines 272-309) after the similarities `sims` have
been computed; `.error` is an exception escaping to the `except` clause. -/
def semanticBody (sims : List ℚ) (q : List Char) : Except Unit WeightVector :=
  let top_sims := topSims sims
  -- `if np.all(top_sims <= 0): return _infer_weights_keyword(query)`
  if top_sims.all (fun v => decide (v ≤ 0)) then .ok (_infer_weights_keyword q)
  else
    -- `weights_norm = top_sims / (top_sims.sum() or 1.0)`
    let s := top_sims.sum
    let denom := if s = 0 then 1 else s
    match blendLoop denom (topPairs sims) with
    | none => .error ()
    | some agg =>
      -- `total = sum(agg.values()) or 1.0` and the final renormalization
      let total := wsum agg
      let t := if total = 0 then 1 else total
      .ok { recreation := agg.recreation / t
            community := agg.community / t
            transport := agg.transport / t
            education := agg.education / t
            utility := agg.utility / t }

/-- `infer_weights_from_nl_query` from `backend/api/app.py` lines 258-312.
The codomain is `Except` because Python functions may raise; the body's
`try/except` catches every embedding-path failure and degrades to keyword
mode. -/
def infer_weights_from_nl_query (emb : EmbedOutcome) (query : List Char) :
    Except Unit WeightVector :=
  let q := pyStrip query
  if q = [] then .ok DEFAULT_WEIGHTS
  else
    match emb with
    | .unavailable => .ok (_infer_weights_keyword q)
    | .raised => .ok (_infer_weights_keyword q)   -- caught by `except Exception`
    | .sims s =>
      match semanticBody s q with
      | .ok w => .ok w
      | .error _ => .ok (_infer_weights_keyword q)  -- caught by `except Exception`

/-! ## The well-resourced scoring engine (`src/analysis/scoring_engine.py`) -/

/-- Per-region raw signal counts with identity, the input of the scoring
pipeline (one element of `all_scores` after `_calculate_component_scores`). -/
structure RegionSignals where
  sa2_code : List Char
  sa2_name : List Char
  business : ℝ
  stops : ℝ
  schools : ℝ
  poi : ℝ

/-- A region with its four z-scores. -/
structure RegionZ where
  sa2_code : List Char
  sa2_name : List Char
  zBusiness : ℝ
  zStops : ℝ
  zSchools : ℝ
  zPoi : ℝ

/-- A region with its four z-scores and the sigmoid-compressed final score. -/
structure RegionScore where
  sa2_code : List Char
  sa2_name : List Char
  zBusiness : ℝ
  zStops : ℝ
  zSchools : ℝ
  zPoi : ℝ
  final_score : ℝ

/-- The four signal dimensions, mirroring the loop
`for component in ['business', 'stops', 'schools', 'poi']`. -/
inductive Dim : Type
  | business | stops | schools | poi
deriving DecidableEq, Repr

/-- Raw value of one dimension. -/
def rawOf : Dim → RegionSignals → ℝ
  | .business, r => r.business
  | .stops, r => r.stops
  | .schools, r => r.schools
  | .poi, r => r.poi

/-- Z-score of one dimension. -/
def zOf : Dim → RegionZ → ℝ
  | .business, r => r.zBusiness
  | .stops, r => r.zStops
  | .schools, r => r.zSchools
  | .poi, r => r.zPoi

/-- Errors a scoring run can signal.  `zeroDivisionError` models Python's
`ZeroDivisionError`; `emptyBatch` is the distinct "EmptyBatch" condition the
specification asks for. -/
inductive ScoringError : Type
  | zeroDivisionError | emptyBatch
deriving DecidableEq, Repr

/-- `mean = sum(values) / len(values)`. -/
noncomputable def popMean (values : List ℝ) : ℝ := values.sum / values.length

/-- `std = (sum((x - mean) ** 2 for x in values) / len(values)) ** 0.5`. -/
noncomputable def popStd (values : List ℝ) : ℝ :=
  Real.sqrt ((values.map (fun x => (x - popMean values) ^ 2)).sum / values.length)

/-- `z_score = (x - mean) / std if std != 0 else 0`. -/
noncomputable def zScoreOf (values : List ℝ) (x : ℝ) : ℝ :=
  if popStd values ≠ 0 then (x - popMean values) / popStd values else 0

/-- `_calculate_z_scores` from `src/analysis/scoring_engine.py` lines
165-177.  On an empty batch, `mean = sum(values) / len(values)` divides by
`len(values) = 0`, which raises `ZeroDivisionError` in Python; that raise is
the `.error` case. -/
noncomputable def _calculate_z_scores (all_scores : List RegionSignals) :
    Except ScoringError (List RegionZ) :=
  match all_scores with
  | [] => .error .zeroDivisionError
  | _ =>
    .ok (all_scores.map fun r =>
      { sa2_code := r.sa2_code
        sa2_name := r.sa2_name
        zBusiness := zScoreOf (all_scores.map (rawOf .business)) r.business
        zStops := zScoreOf (all_scores.map (rawOf .stops)) r.stops
        zSchools := zScoreOf (all_scores.map (rawOf .schools)) r.schools
        zPoi := zScoreOf (all_scores.map (rawOf .poi)) r.poi })

/-- `_calculate_final_scores` from `src/analysis/scoring_engine.py` lines
179-185: `score['final_score'] = 1 / (1 + math.exp(-total_z))` where
`total_z = sum(score['z_scores'].values())`. -/
noncomputable def _calculate_final_scores (all_scores : List RegionZ) :
    List RegionScore :=
  all_scores.map fun r =>
    { sa2_code := r.sa2_code
      sa2_name := r.sa2_name
      zBusiness := r.zBusiness
      zStops := r.zStops
      zSchools := r.zSchools
      zPoi := r.zPoi
      final_score :=
        1 / (1 + Real.exp (-(r.zBusiness + r.zStops + r.zSchools + r.zPoi))) }

/-- Steps 3-4 of `calculate_well_resourced_score`
(`src/analysis/scoring_engine.py` lines 37-41): z-score normalization
followed by sigmoid compression, over an in-memory batch. -/
noncomputable def scorePipeline (batch : List RegionSignals) :
    Except ScoringError (List RegionScore) :=
  (_calculate_z_scores batch).map _calculate_final_scores

/-- The logistic sigmoid, as the specification words it. -/
noncomputable def sigmoid (x : ℝ) : ℝ := 1 / (1 + Real.exp (-x))

/-! ## Derived definitions used by the claim statements -/

/-- A trigger phrase is usable for strip-invariance: non-empty with
non-whitespace first and last characters.  Every phrase in
`FALLBACK_KEYWORDS` satisfies this (checked by `decide` below). -/
def goodPhrase (w : List Char) : Bool :=
  match w.head?, w.getLast? with
  | some a, some b => !a.isWhitespace && !b.isWhitespace
  | _, _ => false

/-- The specification's keyword score: the number of trigger phrases of a
category that occur as substrings of the lower-cased query text. -/
def keywordScoreSpec (c : Cat) (query : List Char) : ℕ :=
  ((FALLBACK_KEYWORDS c).filter (fun w => isSub w (pyLower query))).length

/-- A valid weight vector: all five fields in `[0, 1]`, summing to exactly 1. -/
def validWV (w : WeightVector) : Prop :=
  0 ≤ w.recreation ∧ w.recreation ≤ 1 ∧
  0 ≤ w.community ∧ w.community ≤ 1 ∧
  0 ≤ w.transport ∧ w.transport ≤ 1 ∧
  0 ≤ w.education ∧ w.education ≤ 1 ∧
  0 ≤ w.utility ∧ w.utility ≤ 1 ∧
  wsum w = 1

instance (w : WeightVector) : Decidable (validWV w) := by
  unfold validWV
  infer_instance

instance {e a : Type} [DecidableEq e] [DecidableEq a] : DecidableEq (Except e a)
  | .ok x, .ok y =>
    if h : x = y then .isTrue (by rw [h])
    else .isFalse (fun hh => h (Except.ok.inj hh))
  | .ok _, .error _ => .isFalse (fun hh => Except.noConfusion hh)
  | .error _, .ok _ => .isFalse (fun hh => Except.noConfusion hh)
  | .error x, .error y =>
    if h : x = y then .isTrue (by rw [h])
    else .isFalse (fun hh => h (Except.error.inj hh))

/-- Two characters that differ only in letter case: either equal, or both
letters with the same lower-case form. -/
def charCaseEq (c d : Char) : Prop :=
  c = d ∨ (c.isAlpha = true ∧ d.isAlpha = true ∧ c.toLower = d.toLower)

instance (c d : Char) : Decidable (charCaseEq c d) :=
  inferInstanceAs (Decidable (c = d ∨
    (c.isAlpha = true ∧ d.isAlpha = true ∧ c.toLower = d.toLower)))

/-! ## Helper lemmas: characters and whitespace -/

theorem toLower_of_isWhitespace {c : Char} (h : c.isWhitespace = true) :
    c.toLower = c := by
  simp only [Char.isWhitespace, Bool.or_eq_true, decide_eq_true_eq] at h
  rcases h with ((h | h) | h) | h <;> subst h <;> decide

theorem isWhitespace_eq_false_of_isAlpha {c : Char} (h : c.isAlpha = true) :
    c.isWhitespace = false := by
  by_contra hw
  rw [Bool.not_eq_false] at hw
  simp only [Char.isWhitespace, Bool.or_eq_true, decide_eq_true_eq] at hw
  rcases hw with ((hw | hw) | hw) | hw <;> subst hw <;> simp at h

theorem pyLower_of_all_ws {a : List Char}
    (h : ∀ c ∈ a, c.isWhitespace = true) : pyLower a = a := by
  unfold pyLower
  induction a with
  | nil => rfl
  | cons c rest ih =>
    simp only [List.map_cons, List.cons.injEq]
    exact ⟨toLower_of_isWhitespace (h c (List.mem_cons_self c rest)),
      ih fun x hx => h x (List.mem_cons_of_mem c hx)⟩

/-! ## Helper lemmas: `isSub` is the substring (infix) relation -/

theorem isSub_iff {p l : List Char} : isSub p l = true ↔ p <:+: l := by
  induction l with
  | nil =>
    simp only [isSub, List.isEmpty_iff, List.infix_nil]
  | cons c rest ih =>
    simp only [isSub, Bool.or_eq_true, List.isPrefixOf_iff_prefix, ih,
      List.infix_cons_iff]

/-! ## Helper lemmas: `pyStrip` structure -/

theorem exists_pyStrip_decomp (l : List Char) :
    ∃ a b, l = a ++ pyStrip l ++ b ∧
      (∀ c ∈ a, c.isWhitespace = true) ∧ (∀ c ∈ b, c.isWhitespace = true) := by
  refine ⟨l.takeWhile Char.isWhitespace,
    ((l.dropWhile Char.isWhitespace).reverse.takeWhile Char.isWhitespace).reverse,
    ?_, fun c hc => List.mem_takeWhile_imp hc, fun c hc => ?_⟩
  · unfold pyStrip
    conv_lhs => rw [← List.takeWhile_append_dropWhile Char.isWhitespace l]
    rw [List.append_assoc]
    congr 1
    conv_lhs => rw [← (l.dropWhile Char.isWhitespace).reverse_reverse,
      ← List.takeWhile_append_dropWhile Char.isWhitespace
        (l.dropWhile Char.isWhitespace).reverse]
    rw [List.reverse_append]
  · rw [List.mem_reverse] at hc
    exact List.mem_takeWhile_imp hc

/-- A phrase whose first character is not whitespace is an infix of
`a ++ m` for all-whitespace `a` exactly when it is an infix of `m`. -/
theorem infix_append_left_ws {a m p : List Char} {c : Char}
    (ha : ∀ x ∈ a, x.isWhitespace = true) (hc : c.isWhitespace = false) :
    (c :: p) <:+: a ++ m ↔ (c :: p) <:+: m := by
  induction a with
  | nil => simp
  | cons d rest ih =>
    have hd : d.isWhitespace = true := ha d (List.mem_cons_self d rest)
    have hrest : ∀ x ∈ rest, x.isWhitespace = true :=
      fun x hx => ha x (List.mem_cons_of_mem d hx)
    rw [List.cons_append, List.infix_cons_iff, ih hrest]
    constructor
    · rintro (hpre | hin)
      · rw [List.cons_prefix_cons] at hpre
        rw [hpre.1] at hc
        rw [hd] at hc
        exact absurd hc (by simp)
      · exact hin
    · exact fun h => Or.inr h

/-- A phrase whose last character is not whitespace is an infix of
`m ++ b` for all-whitespace `b` exactly when it is an infix of `m`. -/
theorem infix_append_right_ws {b m p : List Char} {c : Char}
    (hb : ∀ x ∈ b, x.isWhitespace = true) (hc : c.isWhitespace = false) :
    (p ++ [c]) <:+: m ++ b ↔ (p ++ [c]) <:+: m := by
  rw [← List.reverse_infix, ← @List.reverse_infix _ _ m]
  rw [List.reverse_append, List.reverse_append]
  simp only [List.reverse_cons, List.reverse_nil, List.nil_append]
  exact infix_append_left_ws (fun x hx => hb x (List.mem_reverse.mp hx)) hc


theorem fallback_phrases_good :
    ∀ c : Cat, ∀ w ∈ FALLBACK_KEYWORDS c, goodPhrase w = true := by
  intro c
  cases c <;> decide

theorem pyLower_append (x y : List Char) :
    pyLower (x ++ y) = pyLower x ++ pyLower y := List.map_append _ x y

/-- Extract the edge characters of a good phrase. -/
theorem goodPhrase_shape {w : List Char} (hw : goodPhrase w = true) :
    ∃ c p, w = c :: p ∧ c.isWhitespace = false ∧
      ∃ p' d, w = p' ++ [d] ∧ d.isWhitespace = false := by
  match w with
  | [] => simp [goodPhrase] at hw
  | c :: rest =>
    have hne : (c :: rest) ≠ [] := by simp
    rw [goodPhrase, List.getLast?_eq_getLast (c :: rest) hne] at hw
    simp only [List.head?_cons, Bool.and_eq_true, Bool.not_eq_true'] at hw
    exact ⟨c, rest, rfl, hw.1, (c :: rest).dropLast, (c :: rest).getLast hne,
      (List.dropLast_append_getLast hne).symm, hw.2⟩

/-- Substring membership of a phrase with non-whitespace edge characters is
unaffected by the `strip()` the source applies before lower-casing. -/
theorem isSub_lower_pyStrip {w : List Char} (hw : goodPhrase w = true)
    (q : List Char) :
    isSub w (pyLower (pyStrip q)) = isSub w (pyLower q) := by
  obtain ⟨a, b, hdecomp, ha, hb⟩ := exists_pyStrip_decomp q
  obtain ⟨c, p, hcp, hc, p', d, hpd, hd⟩ := goodPhrase_shape hw
  have hq : pyLower q = a ++ (pyLower (pyStrip q) ++ b) := by
    conv_lhs => rw [hdecomp]
    rw [pyLower_append, pyLower_append, pyLower_of_all_ws ha,
      pyLower_of_all_ws hb, List.append_assoc]
  rw [Bool.eq_iff_iff, isSub_iff, isSub_iff, hq]
  constructor
  · intro hin
    exact hin.trans ⟨a, b, by simp⟩
  · intro hin
    rw [hcp] at hin ⊢
    rw [infix_append_left_ws ha hc] at hin
    rw [hcp] at hpd
    rw [hpd] at hin ⊢
    rw [infix_append_right_ws hb hd] at hin
    exact hin

/-! ## Helper lemmas: `catScore` counts matching phrases -/

theorem foldl_count_eq_countP (p : List Char → Bool) :
    ∀ (ws : List (List Char)) (acc : ℚ),
      ws.foldl (fun a w => if p w then a + 1 else a) acc
        = acc + (ws.countP p : ℚ) := by
  intro ws
  induction ws with
  | nil => intro acc; simp
  | cons w rest ih =>
    intro acc
    rw [List.foldl_cons, List.countP_cons]
    by_cases hw : p w
    · rw [if_pos hw, ih, if_pos hw]
      push_cast
      ring
    · rw [if_neg hw, ih, if_neg hw]
      simp

theorem catScore_eq_countP (words : List (List Char)) (text : List Char) :
    catScore words text = (words.countP (fun w => isSub w text) : ℚ) := by
  rw [catScore, foldl_count_eq_countP]
  simp


/-- The source's score (computed over the stripped, lower-cased text)
agrees with the specification's score (over the lower-cased text). -/
theorem catScore_eq_spec (c : Cat) (query : List Char) :
    catScore (FALLBACK_KEYWORDS c) (pyLower (pyStrip query))
      = (keywordScoreSpec c query : ℚ) := by
  rw [catScore_eq_countP, keywordScoreSpec, ← List.countP_eq_length_filter]
  congr 1
  apply List.countP_congr
  intro w hwmem
  rw [isSub_lower_pyStrip (fallback_phrases_good c w hwmem)]

/-! ## Helper lemmas: `pyStrip` idempotence and whitespace-only inputs -/

theorem head?_dropWhile_ws (p : Char → Bool) (l : List Char) {c : Char}
    (h : (l.dropWhile p).head? = some c) : p c = false := by
  have hm := List.head?_dropWhile_not p l
  rw [h] at hm
  simpa using hm

theorem pyStrip_eq_rdropWhile (l : List Char) :
    pyStrip l = (l.dropWhile Char.isWhitespace).rdropWhile Char.isWhitespace :=
  rfl

theorem pyStrip_idem (l : List Char) : pyStrip (pyStrip l) = pyStrip l := by
  rw [pyStrip_eq_rdropWhile, pyStrip_eq_rdropWhile]
  have h1 : ((l.dropWhile Char.isWhitespace).rdropWhile
      Char.isWhitespace).dropWhile Char.isWhitespace
      = (l.dropWhile Char.isWhitespace).rdropWhile Char.isWhitespace := by
    cases hr : (l.dropWhile Char.isWhitespace).rdropWhile Char.isWhitespace with
    | nil => rfl
    | cons c rest =>
      obtain ⟨t, ht⟩ := hr ▸ List.rdropWhile_prefix Char.isWhitespace
        (l.dropWhile Char.isWhitespace)
      have h0 : (l.dropWhile Char.isWhitespace).head? = some c := by
        rw [← ht]; simp
      have := head?_dropWhile_ws Char.isWhitespace l h0
      exact List.dropWhile_cons_of_neg (by simp [this])
  rw [h1, List.rdropWhile_idempotent]

theorem pyStrip_eq_nil_of_ws {l : List Char}
    (h : ∀ c ∈ l, c.isWhitespace = true) : pyStrip l = [] := by
  rw [pyStrip_eq_rdropWhile]
  have : l.dropWhile Char.isWhitespace = [] := by
    rw [List.dropWhile_eq_nil_iff]
    exact h
  rw [this, List.rdropWhile_nil]

/-- The source calls `_infer_weights_keyword` on the already-stripped query;
since keyword mode strips again, the result is the same as on the raw query. -/
theorem keyword_pyStrip (q : List Char) :
    _infer_weights_keyword (pyStrip q) = _infer_weights_keyword q := by
  rw [_infer_weights_keyword, _infer_weights_keyword, pyStrip_idem]

/-! ## Helper lemmas: rational sums and weight-vector validity -/

theorem qsum_nonneg : ∀ {l : List ℚ}, (∀ x ∈ l, 0 ≤ x) → 0 ≤ l.sum := by
  intro l
  induction l with
  | nil => intro _; simp
  | cons x rest ih =>
    intro h
    rw [List.sum_cons]
    have hx := h x (List.mem_cons_self x rest)
    have hr := ih fun y hy => h y (List.mem_cons_of_mem x hy)
    linarith

theorem qsum_pos {l : List ℚ} {x : ℚ} (hx : x ∈ l) (hpos : 0 < x)
    (hnn : ∀ y ∈ l, 0 ≤ y) : 0 < l.sum := by
  induction l with
  | nil => simp at hx
  | cons y rest ih =>
    rw [List.sum_cons]
    rcases List.mem_cons.mp hx with rfl | hx'
    · have := qsum_nonneg fun z hz => hnn z (List.mem_cons_of_mem x hz)
      linarith
    · have hy := hnn y (List.mem_cons_self y rest)
      have := ih hx' fun z hz => hnn z (List.mem_cons_of_mem y hz)
      linarith



theorem default_weights_valid : validWV DEFAULT_WEIGHTS := by
  with_unfolding_all decide

theorem example_weights_valid :
    ∀ ex ∈ EXAMPLE_QUERIES, validWV ex.weights := by
  with_unfolding_all decide

/-- Five non-negative values normalized by their (positive) sum form a
valid weight vector. -/
theorem normalized_valid {a b c d e : ℚ} (ha : 0 ≤ a) (hb : 0 ≤ b)
    (hc : 0 ≤ c) (hd : 0 ≤ d) (he : 0 ≤ e) (hpos : 0 < a + b + c + d + e) :
    validWV { recreation := a / (a + b + c + d + e)
              community := b / (a + b + c + d + e)
              transport := c / (a + b + c + d + e)
              education := d / (a + b + c + d + e)
              utility := e / (a + b + c + d + e) } := by
  have hne : a + b + c + d + e ≠ 0 := ne_of_gt hpos
  refine ⟨by positivity, ?_, by positivity, ?_, by positivity, ?_,
    by positivity, ?_, by positivity, ?_, ?_⟩
  · rw [div_le_one hpos]; linarith
  · rw [div_le_one hpos]; linarith
  · rw [div_le_one hpos]; linarith
  · rw [div_le_one hpos]; linarith
  · rw [div_le_one hpos]; linarith
  · rw [wsum]
    field_simp

theorem catScore_nonneg (words : List (List Char)) (text : List Char) :
    0 ≤ catScore words text := by
  rw [catScore_eq_countP]
  positivity

/-- Keyword mode always produces a valid weight vector. -/
theorem keyword_valid (q : List Char) : validWV (_infer_weights_keyword q) := by
  rw [_infer_weights_keyword]
  by_cases h0 : pyLower (pyStrip q) = []
  · simp only [h0, if_pos rfl]
    exact default_weights_valid
  · rw [if_neg h0]
    set text := pyLower (pyStrip q)
    set sR := catScore (FALLBACK_KEYWORDS .recreation) text with hsR
    set sC := catScore (FALLBACK_KEYWORDS .community) text with hsC
    set sT := catScore (FALLBACK_KEYWORDS .transport) text with hsT
    set sE := catScore (FALLBACK_KEYWORDS .education) text with hsE
    set sU := catScore (FALLBACK_KEYWORDS .utility) text with hsU
    by_cases hz : sR = 0 ∧ sC = 0 ∧ sT = 0 ∧ sE = 0 ∧ sU = 0
    · rw [if_pos hz]
      exact default_weights_valid
    · rw [if_neg hz]
      have hRnn := catScore_nonneg (FALLBACK_KEYWORDS .recreation) text
      have hCnn := catScore_nonneg (FALLBACK_KEYWORDS .community) text
      have hTnn := catScore_nonneg (FALLBACK_KEYWORDS .transport) text
      have hEnn := catScore_nonneg (FALLBACK_KEYWORDS .education) text
      have hUnn := catScore_nonneg (FALLBACK_KEYWORDS .utility) text
      rw [← hsR] at hRnn
      rw [← hsC] at hCnn
      rw [← hsT] at hTnn
      rw [← hsE] at hEnn
      rw [← hsU] at hUnn
      have hpos : 0 < sR + sC + sT + sE + sU := by
        rcases not_and_or.mp hz with h | hrest
        · have : 0 < sR := lt_of_le_of_ne hRnn (Ne.symm h)
          linarith
        · rcases not_and_or.mp hrest with h | hrest
          · have : 0 < sC := lt_of_le_of_ne hCnn (Ne.symm h)
            linarith
          · rcases not_and_or.mp hrest with h | hrest
            · have : 0 < sT := lt_of_le_of_ne hTnn (Ne.symm h)
              linarith
            · rcases not_and_or.mp hrest with h | h
              · have : 0 < sE := lt_of_le_of_ne hEnn (Ne.symm h)
                linarith
              · have : 0 < sU := lt_of_le_of_ne hUnn (Ne.symm h)
                linarith
      simp only [if_neg (ne_of_gt hpos)]
      exact normalized_valid hRnn hCnn hTnn hEnn hUnn hpos

/-! ## Helper lemmas: the semantic blending loop -/

theorem blendLoop_facts :
    ∀ (ps : List (Nat × ℚ)) {denom : ℚ} {agg : WeightVector},
      blendLoop denom ps = some agg →
      (∀ pv ∈ ps, 0 ≤ pv.2) → 0 < denom →
      0 ≤ agg.recreation ∧ 0 ≤ agg.community ∧ 0 ≤ agg.transport ∧
      0 ≤ agg.education ∧ 0 ≤ agg.utility ∧
      wsum agg = (ps.map Prod.snd).sum / denom := by
  intro ps
  induction ps with
  | nil =>
    intro denom agg h _ _
    rw [blendLoop] at h
    injection h with h
    subst h
    refine ⟨le_refl 0, le_refl 0, le_refl 0, le_refl 0, le_refl 0, ?_⟩
    simp [wsum]
  | cons pv rest ih =>
    intro denom agg h hnn hd
    obtain ⟨i, v⟩ := pv
    rw [blendLoop] at h
    cases hq : EXAMPLE_QUERIES.get? i with
    | none => rw [hq] at h; exact absurd h (by simp)
    | some ex =>
      cases hb : blendLoop denom rest with
      | none => rw [hq, hb] at h; exact absurd h (by simp)
      | some acc =>
        rw [hq, hb] at h
        injection h with h
        subst h
        have hex := example_weights_valid ex (List.get?_mem hq)
        obtain ⟨her, _, hec, _, het, _, hee, _, heu, _, hes⟩ := hex
        rw [wsum] at hes
        have hv : 0 ≤ v := hnn (i, v) (List.mem_cons_self _ rest)
        have hk : 0 ≤ v / denom := div_nonneg hv (le_of_lt hd)
        obtain ⟨h1, h2, h3, h4, h5, h6⟩ :=
          ih hb (fun x hx => hnn x (List.mem_cons_of_mem _ hx)) hd
        refine ⟨add_nonneg h1 (mul_nonneg hk her),
          add_nonneg h2 (mul_nonneg hk hec),
          add_nonneg h3 (mul_nonneg hk het),
          add_nonneg h4 (mul_nonneg hk hee),
          add_nonneg h5 (mul_nonneg hk heu), ?_⟩
        simp only [wsum, List.map_cons, List.sum_cons]
        rw [wsum] at h6
        have hmul : v / denom * ex.weights.recreation
            + v / denom * ex.weights.community
            + v / denom * ex.weights.transport
            + v / denom * ex.weights.education
            + v / denom * ex.weights.utility = v / denom := by
          have hfac : v / denom * ex.weights.recreation
              + v / denom * ex.weights.community
              + v / denom * ex.weights.transport
              + v / denom * ex.weights.education
              + v / denom * ex.weights.utility
              = v / denom * (ex.weights.recreation + ex.weights.community
                + ex.weights.transport + ex.weights.education
                + ex.weights.utility) := by ring
          rw [hfac, hes, mul_one]
        rw [add_div]
        linarith

/-- The semantic path, when it succeeds and the selected top-k similarities
are all non-negative, produces a valid weight vector. -/
theorem semanticBody_ok_valid {sims : List ℚ} {q : List Char}
    {w : WeightVector} (hnn : ∀ v ∈ topSims sims, 0 ≤ v)
    (h : semanticBody sims q = .ok w) : validWV w := by
  rw [semanticBody] at h
  by_cases hall : (topSims sims).all (fun v => decide (v ≤ 0)) = true
  · rw [if_pos hall] at h
    injection h with h
    subst h
    exact keyword_valid q
  · rw [if_neg hall] at h
    -- some selected similarity is strictly positive
    have hex : ∃ v ∈ topSims sims, 0 < v := by
      by_contra hc
      push_neg at hc
      apply hall
      rw [List.all_eq_true]
      intro x hx
      simp only [decide_eq_true_eq]
      exact hc x hx
    have hspos : 0 < (topSims sims).sum := by
      obtain ⟨v0, hv0mem, hv0pos⟩ := hex
      exact qsum_pos hv0mem hv0pos hnn
    have hsne : (topSims sims).sum ≠ 0 := ne_of_gt hspos
    simp only [if_neg hsne] at h
    cases hblend : blendLoop (topSims sims).sum (topPairs sims) with
    | none => rw [hblend] at h; exact absurd h (by simp)
    | some agg =>
      rw [hblend] at h
      have hmem : ∀ pv ∈ topPairs sims, 0 ≤ pv.2 := by
        intro pv hpv
        exact hnn pv.2 (List.mem_map_of_mem Prod.snd hpv)
      obtain ⟨g1, g2, g3, g4, g5, gsum⟩ := blendLoop_facts _ hblend hmem hspos
      rw [show (topPairs sims).map Prod.snd = topSims sims from rfl] at gsum
      rw [div_self hsne] at gsum
      simp only [gsum] at h
      rw [if_neg (one_ne_zero : (1 : ℚ) ≠ 0)] at h
      simp only [div_one] at h
      injection h with h
      subst h
      rw [wsum] at gsum
      exact ⟨g1, by linarith, g2, by linarith, g3, by linarith, g4, by linarith,
        g5, by linarith, by rw [wsum]; linarith⟩

/-! ## Helper lemmas: scoring engine statistics -/

theorem sum_of_const {c : ℝ} :
    ∀ {l : List ℝ}, (∀ x ∈ l, x = c) → l.sum = l.length * c := by
  intro l
  induction l with
  | nil => intro _; simp
  | cons x rest ih =>
    intro h
    rw [List.sum_cons, List.length_cons, ih fun y hy => h y (List.mem_cons_of_mem x hy),
      h x (List.mem_cons_self x rest)]
    push_cast
    ring

theorem popMean_const {l : List ℝ} {c : ℝ} (hne : l ≠ [])
    (h : ∀ x ∈ l, x = c) : popMean l = c := by
  have hlen : (l.length : ℝ) ≠ 0 := by
    simp only [ne_eq, Nat.cast_eq_zero, List.length_eq_zero]
    exact hne
  rw [popMean, sum_of_const h, mul_comm, mul_div_assoc, div_self hlen, mul_one]

theorem popStd_const {l : List ℝ} {c : ℝ} (h : ∀ x ∈ l, x = c) :
    popStd l = 0 := by
  rcases eq_or_ne l [] with rfl | hne
  · rw [popStd]
    simp [popMean]
  · rw [popStd]
    have hsq : ∀ y ∈ l.map (fun x => (x - popMean l) ^ 2), y = 0 := by
      intro y hy
      obtain ⟨x, hx, rfl⟩ := List.mem_map.mp hy
      rw [h x hx, popMean_const hne h]
      ring
    rw [sum_of_const hsq, mul_zero, zero_div, Real.sqrt_zero]

theorem zScoreOf_const {l : List ℝ} (c : ℝ) (h : ∀ x ∈ l, x = c) (x : ℝ) :
    zScoreOf l x = 0 := by
  rw [zScoreOf, popStd_const h]
  simp

/-! ## Claim theorems -/

/-- C2 counterexample: scoring an empty batch is NOT rejected before the
z-score normalization step with an "EmptyBatch" signal; the pipeline instead
fails inside `_calculate_z_scores` itself. -/
theorem C2_counterexample :
    ¬ (scorePipeline [] = Except.error ScoringError.emptyBatch) := by
  intro h
  rw [scorePipeline] at h
  simp only [_calculate_z_scores, Except.map] at h
  exact ScoringError.noConfusion (Except.error.inj h)

/-- C2 (amended): scoring a batch of zero regions fails, but inside the
z-score normalization step: `mean = sum(values) / len(values)` divides by
the batch length 0, raising `ZeroDivisionError`, which propagates to the
caller; no distinct "EmptyBatch" condition is signaled beforehand. -/
theorem C2_empty_batch_zero_division :
    scorePipeline [] = Except.error ScoringError.zeroDivisionError ∧
    _calculate_z_scores ([] : List RegionSignals)
      = Except.error ScoringError.zeroDivisionError :=
  ⟨rfl, rfl⟩

/-- C3: for every behaviour of the embedding capability (unavailable,
raising, or any similarity vector) and every input text,
`infer_weights_from_nl_query` never raises: it always returns a
well-formed five-field `WeightVector`. -/
theorem C3_never_raises_wellformed (emb : EmbedOutcome) (query : List Char) :
    ∃ w : WeightVector, infer_weights_from_nl_query emb query = .ok w := by
  simp only [infer_weights_from_nl_query]
  by_cases hq : pyStrip query = []
  · rw [if_pos hq]
    exact ⟨DEFAULT_WEIGHTS, rfl⟩
  · rw [if_neg hq]
    cases emb with
    | unavailable => exact ⟨_, rfl⟩
    | raised => exact ⟨_, rfl⟩
    | sims s =>
      cases hb : semanticBody s (pyStrip query) with
      | ok w => exact ⟨w, by simp only [hb]⟩
      | error e =>
        exact ⟨_infer_weights_keyword (pyStrip query), by simp only [hb]⟩

/-- C6: a single-region batch has population standard deviation 0 in every
dimension, so every z-score is 0 and the final score is exactly
`sigmoid 0 = 1/2`. -/
theorem C6_single_region_half (r : RegionSignals) :
    scorePipeline [r] = .ok
      [{ sa2_code := r.sa2_code, sa2_name := r.sa2_name,
         zBusiness := 0, zStops := 0, zSchools := 0, zPoi := 0,
         final_score := 1/2 }] := by
  have hz : ∀ (d : Dim) (x : ℝ), zScoreOf ([r].map (rawOf d)) x = 0 := by
    intro d x
    apply zScoreOf_const (rawOf d r)
    intro y hy
    simpa using hy
  rw [scorePipeline]
  simp only [_calculate_z_scores, List.map_cons, List.map_nil, Except.map,
    _calculate_final_scores, rawOf]
  have hb := hz .business r.business
  have hs := hz .stops r.stops
  have hsc := hz .schools r.schools
  have hp := hz .poi r.poi
  simp only [List.map_cons, List.map_nil, rawOf] at hb hs hsc hp
  rw [hb, hs, hsc, hp]
  norm_num [Real.exp_zero]

/-- C9: the empty query, and any whitespace-only query, yields exactly the
DEFAULT weight vector {0.25, 0.25, 0.25, 0.15, 0.10}, for every behaviour
of the embedding capability. -/
theorem C9_blank_query_default (emb : EmbedOutcome) (query : List Char)
    (h : ∀ c ∈ query, c.isWhitespace = true) :
    infer_weights_from_nl_query emb query
      = .ok { recreation := 0.25, community := 0.25, transport := 0.25,
              education := 0.15, utility := 0.10 } := by
  have hq : pyStrip query = [] := pyStrip_eq_nil_of_ws h
  simp only [infer_weights_from_nl_query, hq, if_pos rfl]
  rfl

/-- C9 witness: the three-space query with the library unavailable. -/
theorem C9_witness :
    infer_weights_from_nl_query .unavailable (chars "   ")
      = .ok { recreation := 0.25, community := 0.25, transport := 0.25,
              education := 0.15, utility := 0.10 } :=
  C9_blank_query_default .unavailable (chars "   ") (by decide)

/-- C5: when every selected top-k similarity is ≤ 0, semantic mode is
abandoned and the result is exactly keyword mode on the same text. -/
theorem C5_nonpositive_topk_keyword_fallback (s : List ℚ) (query : List Char)
    (hq : query ≠ []) (h : ∀ v ∈ topSims s, v ≤ 0) :
    infer_weights_from_nl_query (.sims s) query
      = .ok (_infer_weights_keyword query) := by
  simp only [infer_weights_from_nl_query]
  by_cases hq0 : pyStrip query = []
  · rw [if_pos hq0]
    have hkw : _infer_weights_keyword query = DEFAULT_WEIGHTS := by
      rw [_infer_weights_keyword]
      have hl : pyLower (pyStrip query) = [] := by rw [hq0]; rfl
      rw [if_pos hl]
    rw [hkw]
  · rw [if_neg hq0]
    have hall : (topSims s).all (fun v => decide (v ≤ 0)) = true := by
      rw [List.all_eq_true]
      intro x hx
      simpa using h x hx
    have hsb : semanticBody s (pyStrip query)
        = .ok (_infer_weights_keyword (pyStrip query)) := by
      simp only [semanticBody, if_pos hall]
    simp only [hsb]
    rw [keyword_pyStrip]

/-- C5 witness: an all-negative similarity vector on a non-empty query. -/
theorem C5_witness :
    infer_weights_from_nl_query (.sims [-1, -1, -1, -1, -1, -1]) (chars "parks")
      = .ok (_infer_weights_keyword (chars "parks")) :=
  C5_nonpositive_topk_keyword_fallback [-1, -1, -1, -1, -1, -1] (chars "parks")
    (by decide) (by with_unfolding_all decide)

/-- C7: a dimension whose raw values are identical across the whole batch
has population standard deviation exactly 0, and the special case in
`_calculate_z_scores` assigns z-score 0 to every region on that dimension
without ever dividing by the standard deviation. -/
theorem C7_zero_variance_zscore_zero (batch : List RegionSignals) (d : Dim)
    (hne : batch ≠ [])
    (hconst : ∀ r ∈ batch, ∀ r2 ∈ batch, rawOf d r = rawOf d r2) :
    ∃ zs, _calculate_z_scores batch = .ok zs ∧ ∀ z ∈ zs, zOf d z = 0 := by
  cases batch with
  | nil => exact absurd rfl hne
  | cons r0 rest =>
    refine ⟨_, rfl, ?_⟩
    intro z hz
    obtain ⟨r, hr, rfl⟩ := List.mem_map.mp hz
    have hc : ∀ x ∈ (r0 :: rest).map (rawOf d), x = rawOf d r0 := by
      intro x hx
      obtain ⟨y, hy, rfl⟩ := List.mem_map.mp hx
      exact hconst y hy r0 (List.mem_cons_self r0 rest)
    cases d with
    | business => exact zScoreOf_const _ hc r.business
    | stops => exact zScoreOf_const _ hc r.stops
    | schools => exact zScoreOf_const _ hc r.schools
    | poi => exact zScoreOf_const _ hc r.poi

/-- C7 witness: two regions with identical business counts. -/
theorem C7_witness :
    ∃ zs, _calculate_z_scores
        [{ sa2_code := chars "A", sa2_name := chars "A", business := 7,
           stops := 2, schools := 3, poi := 4 },
         { sa2_code := chars "B", sa2_name := chars "B", business := 7,
           stops := 5, schools := 6, poi := 8 }] = .ok zs ∧
      ∀ z ∈ zs, zOf .business z = 0 :=
  C7_zero_variance_zscore_zero _ .business (by simp)
    (by
      intro r hr r2 hr2
      simp only [List.mem_cons, List.mem_singleton, List.not_mem_nil,
        or_false] at hr hr2
      rcases hr with rfl | rfl <;> rcases hr2 with rfl | rfl <;> rfl)

/-- C8: for every region of a non-empty batch the final score is the
logistic sigmoid of the sum of its four z-scores, hence strictly between
0 and 1. -/
theorem C8_final_score_open_unit (batch : List RegionSignals)
    (hne : batch ≠ []) :
    ∃ out, scorePipeline batch = .ok out ∧
      ∀ s ∈ out, 0 < s.final_score ∧ s.final_score < 1 ∧
        s.final_score = sigmoid (s.zBusiness + s.zStops + s.zSchools + s.zPoi) := by
  cases batch with
  | nil => exact absurd rfl hne
  | cons r0 rest =>
    refine ⟨_, rfl, ?_⟩
    intro s hs
    simp only [_calculate_final_scores, List.mem_map] at hs
    obtain ⟨z, hz, rfl⟩ := hs
    have hexp := Real.exp_pos (-(z.zBusiness + z.zStops + z.zSchools + z.zPoi))
    refine ⟨by positivity, ?_, rfl⟩
    rw [div_lt_one (by positivity)]
    linarith

/-- C8 witness: a singleton batch. -/
theorem C8_witness :
    ∃ out, scorePipeline
        [{ sa2_code := chars "A", sa2_name := chars "A", business := 1,
           stops := 2, schools := 3, poi := 4 }] = .ok out ∧
      ∀ s ∈ out, 0 < s.final_score ∧ s.final_score < 1 ∧
        s.final_score = sigmoid (s.zBusiness + s.zStops + s.zSchools + s.zPoi) :=
  C8_final_score_open_unit _ (by simp)


/-- C1 counterexample: the similarity vector [0.5, 0, -0.5, -1, -1, -1] has
top-3 similarities [0.5, 0, -0.5] summing to 0, so the `or 1.0` guard makes
the code divide by 1 and blend with a negative weight: the returned vector
has a negative transport weight and sums to 0, not 1 ± 1e-6. -/
theorem C1_counterexample :
    infer_weights_from_nl_query
        (.sims [1/2, 0, -1/2, -1, -1, -1]) (chars "x")
      = .ok { recreation := 1/40, community := 1/20, transport := -1/20,
              education := 3/40, utility := -1/10 }
    ∧ ¬ (0 ≤ ({ recreation := 1/40, community := 1/20, transport := -1/20,
                education := 3/40, utility := -1/10 : WeightVector }).transport)
    ∧ wsum { recreation := 1/40, community := 1/20, transport := -1/20,
             education := 3/40, utility := -1/10 } = 0 := by
  with_unfolding_all decide

/-- C1 (amended): whenever the embedding capability is unavailable, raises,
or returns similarities whose selected top-k values are all non-negative —
in particular on every fallback path — the returned weight vector has
exactly the five categories, each value in [0, 1], and the values sum to
1 exactly (hence to 1.0 within 1e-6). -/
theorem C1_weights_valid_when_topk_nonneg (emb : EmbedOutcome)
    (query : List Char)
    (hnn : ∀ s, emb = EmbedOutcome.sims s → ∀ v ∈ topSims s, 0 ≤ v) :
    ∃ w, infer_weights_from_nl_query emb query = .ok w ∧ validWV w ∧
      |wsum w - 1| ≤ 1/1000000 := by
  have habs : ∀ w : WeightVector, validWV w → |wsum w - 1| ≤ 1/1000000 := by
    intro w hw
    rw [hw.2.2.2.2.2.2.2.2.2.2]
    norm_num
  simp only [infer_weights_from_nl_query]
  by_cases hq : pyStrip query = []
  · rw [if_pos hq]
    exact ⟨DEFAULT_WEIGHTS, rfl, default_weights_valid,
      habs _ default_weights_valid⟩
  · rw [if_neg hq]
    cases emb with
    | unavailable =>
      exact ⟨_, rfl, keyword_valid _, habs _ (keyword_valid _)⟩
    | raised =>
      exact ⟨_, rfl, keyword_valid _, habs _ (keyword_valid _)⟩
    | sims s =>
      cases hb : semanticBody s (pyStrip query) with
      | ok w =>
        have hv := semanticBody_ok_valid (hnn s rfl) hb
        exact ⟨w, by simp only [hb], hv, habs _ hv⟩
      | error e =>
        exact ⟨_infer_weights_keyword (pyStrip query), by simp only [hb],
          keyword_valid _, habs _ (keyword_valid _)⟩

/-- C1 witness: the keyword path on a concrete query. -/
theorem C1_witness :
    ∃ w, infer_weights_from_nl_query .unavailable (chars "park") = .ok w ∧
      validWV w ∧ |wsum w - 1| ≤ 1/1000000 :=
  C1_weights_valid_when_topk_nonneg .unavailable (chars "park")
    (fun s h => EmbedOutcome.noConfusion h)

theorem keywordScoreSpec_zero_of_blank {q : List Char}
    (h0 : pyLower (pyStrip q) = []) (c : Cat) : keywordScoreSpec c q = 0 := by
  have hz : catScore (FALLBACK_KEYWORDS c) (pyLower (pyStrip q)) = 0 := by
    rw [h0]
    cases c <;> with_unfolding_all decide
  rw [catScore_eq_spec] at hz
  exact_mod_cast hz

/-- C4: keyword mode scores each category by the number of its distinct
trigger phrases occurring as substrings of the lower-cased text (each
phrase contributing at most 1); all-zero scores yield DEFAULT, otherwise
each score is divided by the sum of the five scores. -/
theorem C4_keyword_score_counts (q : List Char) (hq : q ≠ []) :
    (∀ c : Cat, (FALLBACK_KEYWORDS c).Nodup) ∧
    ((∀ c : Cat, keywordScoreSpec c q = 0) →
      _infer_weights_keyword q = DEFAULT_WEIGHTS) ∧
    ((∃ c : Cat, keywordScoreSpec c q ≠ 0) →
      ∀ c : Cat, wget c (_infer_weights_keyword q)
        = (keywordScoreSpec c q : ℚ) /
          ((keywordScoreSpec Cat.recreation q : ℚ)
            + (keywordScoreSpec Cat.community q : ℚ)
            + (keywordScoreSpec Cat.transport q : ℚ)
            + (keywordScoreSpec Cat.education q : ℚ)
            + (keywordScoreSpec Cat.utility q : ℚ))) := by
  refine ⟨fun c => by cases c <;> decide, ?_, ?_⟩
  · intro hz
    simp only [_infer_weights_keyword]
    by_cases h0 : pyLower (pyStrip q) = []
    · rw [if_pos h0]
    · rw [if_neg h0]
      have hs : ∀ c : Cat,
          catScore (FALLBACK_KEYWORDS c) (pyLower (pyStrip q)) = 0 := by
        intro c
        rw [catScore_eq_spec, hz c]
        norm_num
      simp only [hs]
      simp
  · intro hex c
    have h0 : pyLower (pyStrip q) ≠ [] := by
      intro h0
      obtain ⟨c0, hc0⟩ := hex
      exact hc0 (keywordScoreSpec_zero_of_blank h0 c0)
    have hnn : ∀ c : Cat, (0 : ℚ) ≤ (keywordScoreSpec c q : ℚ) :=
      fun c => Nat.cast_nonneg _
    have hpos : 0 < (keywordScoreSpec Cat.recreation q : ℚ)
        + (keywordScoreSpec Cat.community q : ℚ)
        + (keywordScoreSpec Cat.transport q : ℚ)
        + (keywordScoreSpec Cat.education q : ℚ)
        + (keywordScoreSpec Cat.utility q : ℚ) := by
      obtain ⟨c0, hc0⟩ := hex
      have h1 := hnn Cat.recreation
      have h2 := hnn Cat.community
      have h3 := hnn Cat.transport
      have h4 := hnn Cat.education
      have h5 := hnn Cat.utility
      have hc0q : (0 : ℚ) < (keywordScoreSpec c0 q : ℚ) := by
        exact_mod_cast Nat.pos_of_ne_zero hc0
      cases c0 <;> linarith
    have hcond : ¬ ((keywordScoreSpec Cat.recreation q : ℚ) = 0
        ∧ (keywordScoreSpec Cat.community q : ℚ) = 0
        ∧ (keywordScoreSpec Cat.transport q : ℚ) = 0
        ∧ (keywordScoreSpec Cat.education q : ℚ) = 0
        ∧ (keywordScoreSpec Cat.utility q : ℚ) = 0) := by
      obtain ⟨c0, hc0⟩ := hex
      rintro ⟨z1, z2, z3, z4, z5⟩
      cases c0
      · exact hc0 (by exact_mod_cast z1)
      · exact hc0 (by exact_mod_cast z2)
      · exact hc0 (by exact_mod_cast z3)
      · exact hc0 (by exact_mod_cast z4)
      · exact hc0 (by exact_mod_cast z5)
    simp only [_infer_weights_keyword, if_neg h0, catScore_eq_spec]
    rw [if_neg hcond, if_neg (ne_of_gt hpos)]
    cases c <;> rfl

/-- C4 witness: a concrete query containing only recreation triggers. -/
theorem C4_witness :
    (∀ c : Cat, (FALLBACK_KEYWORDS c).Nodup) ∧
    ((∀ c : Cat, keywordScoreSpec c (chars "lots of parks and beaches") = 0) →
      _infer_weights_keyword (chars "lots of parks and beaches")
        = DEFAULT_WEIGHTS) ∧
    ((∃ c : Cat, keywordScoreSpec c (chars "lots of parks and beaches") ≠ 0) →
      ∀ c : Cat, wget c (_infer_weights_keyword (chars "lots of parks and beaches"))
        = (keywordScoreSpec c (chars "lots of parks and beaches") : ℚ) /
          ((keywordScoreSpec Cat.recreation (chars "lots of parks and beaches") : ℚ)
            + (keywordScoreSpec Cat.community (chars "lots of parks and beaches") : ℚ)
            + (keywordScoreSpec Cat.transport (chars "lots of parks and beaches") : ℚ)
            + (keywordScoreSpec Cat.education (chars "lots of parks and beaches") : ℚ)
            + (keywordScoreSpec Cat.utility (chars "lots of parks and beaches") : ℚ))) :=
  C4_keyword_score_counts (chars "lots of parks and beaches") (by decide)



theorem charCaseEq_ws {c d : Char} (h : charCaseEq c d) :
    c.isWhitespace = d.isWhitespace := by
  rcases h with rfl | ⟨ha, hb, _⟩
  · rfl
  · rw [isWhitespace_eq_false_of_isAlpha ha, isWhitespace_eq_false_of_isAlpha hb]

theorem charCaseEq_toLower {c d : Char} (h : charCaseEq c d) :
    c.toLower = d.toLower := by
  rcases h with rfl | ⟨_, _, hl⟩
  · rfl
  · exact hl

theorem forall2_caseEq_dropWhile {l l2 : List Char}
    (h : List.Forall₂ charCaseEq l l2) :
    List.Forall₂ charCaseEq (l.dropWhile Char.isWhitespace)
      (l2.dropWhile Char.isWhitespace) := by
  induction h with
  | nil => exact .nil
  | @cons a b la lb hcd hrest ih =>
    by_cases hws : a.isWhitespace = true
    · rw [List.dropWhile_cons_of_pos hws,
        List.dropWhile_cons_of_pos (by rw [← charCaseEq_ws hcd]; exact hws)]
      exact ih
    · rw [List.dropWhile_cons_of_neg (by simpa using hws),
        List.dropWhile_cons_of_neg (by
          rw [← charCaseEq_ws hcd]
          simpa using hws)]
      exact .cons hcd hrest

theorem forall2_caseEq_pyStrip {l l2 : List Char}
    (h : List.Forall₂ charCaseEq l l2) :
    List.Forall₂ charCaseEq (pyStrip l) (pyStrip l2) := by
  rw [pyStrip, pyStrip]
  exact List.rel_reverse (forall2_caseEq_dropWhile
    (List.rel_reverse (forall2_caseEq_dropWhile h)))

theorem forall2_caseEq_pyLower {l l2 : List Char}
    (h : List.Forall₂ charCaseEq l l2) : pyLower l = pyLower l2 := by
  induction h with
  | nil => rfl
  | cons hcd _ ih =>
    simp only [pyLower, List.map_cons] at ih ⊢
    rw [charCaseEq_toLower hcd, ih]

/-- C10: keyword mode is case-insensitive: queries that differ only in
letter case produce the same weight vector, because the input is
lower-cased before substring matching and every trigger phrase is
lower-case. -/
theorem C10_keyword_case_insensitive (q q2 : List Char)
    (h : List.Forall₂ charCaseEq q q2) :
    _infer_weights_keyword q = _infer_weights_keyword q2 := by
  have htext : pyLower (pyStrip q) = pyLower (pyStrip q2) :=
    forall2_caseEq_pyLower (forall2_caseEq_pyStrip h)
  rw [_infer_weights_keyword, _infer_weights_keyword, htext]

/-- C10 witness: a mixed-case variant of a recreation query. -/
theorem C10_witness :
    _infer_weights_keyword (chars "Lots of PARKS and Beaches")
      = _infer_weights_keyword (chars "lots of parks and beaches") :=
  C10_keyword_case_insensitive (chars "Lots of PARKS and Beaches")
    (chars "lots of parks and beaches") (by decide)
